import Mathlib

/-!
Verification of the option-parsing and resize-dispatch logic of the rsimg
image-resizing utility, shallowly embedding the Rust source src/main.rs.
Strings are lists of characters; the u32 type is Nat with an explicit bound
of 2 ^ 32; f32 values, parsing and arithmetic are idealised as exact
rationals (rounding of floating point is not modelled); images are
represented by their pixel dimensions and a file save by a record of the
written path, dimensions, and filter.  Panics (unwrap failures, explicit
panic calls, out-of-bounds indexing) are represented by the error side of
Except.  Directory walking and image codec work are external collaborators:
the walk is a given list of entries, decode is a given image value.
-/

namespace Rsimg

/-- FilterType mirrors image::imageops::FilterType.  Triangle is the linear
filter of the image crate and CatmullRom is its cubic filter. -/
inductive FilterType where
  | Nearest
  | Triangle
  | CatmullRom
  | Gaussian
  | Lanczos3
deriving DecidableEq

/-- One constructor per panic site of main.rs: the explicit panic for a
missing size option, the explicit panic for a malformed key=value option,
an unwrap of a failed parse, and an out-of-bounds vector index. -/
inductive RsError where
  | missingSize
  | invalidOption (seg : List Char)
  | panicParse
  | panicIndex
deriving DecidableEq

/-- Embedding of Rust str::split with a single-character pattern: the list of
(possibly empty) chunks between occurrences of the separator.  Like Rust,
the result is never the empty list, and an empty input yields one empty
chunk. -/
def splitOnChar (c : Char) : List Char → List (List Char)
  | [] => [[]]
  | a :: rest =>
    if a = c then [] :: splitOnChar c rest
    else
      match splitOnChar c rest with
      | [] => [[a]]
      | s :: ss => (a :: s) :: ss

/-- Embedding of Rust str::ends_with with a single-character pattern. -/
def listEndsWith (l : List Char) (c : Char) : Bool :=
  match l.getLast? with
  | some c2 => c2 = c
  | none => false

/-- Numeric value of a decimal digit character, none on a non-digit. -/
def digitVal (c : Char) : Option Nat :=
  if c.isDigit then some (c.toNat - 48) else none

/-- Accumulating decimal evaluation of a digit string; none if any character
is not a digit. -/
def parseDigitsAux (acc : Nat) : List Char → Option Nat
  | [] => some acc
  | c :: rest =>
    match digitVal c with
    | some d => parseDigitsAux (acc * 10 + d) rest
    | none => none

/-- Embedding of Rust u32::from_str: an optional leading plus sign, then a
nonempty run of decimal digits, rejecting values of 2 ^ 32 or more. -/
def parseU32 (s : List Char) : Option Nat :=
  let core := match s with
    | '+' :: rest => rest
    | _ => s
  match core with
  | [] => none
  | _ =>
    match parseDigitsAux 0 core with
    | some n => if n < 2 ^ 32 then some n else none
    | none => none

/-- Exact value of a nonempty digit run, as a rational. -/
def decimalDigitsVal (l : List Char) : Option ℚ :=
  (parseDigitsAux 0 l).map (fun n => (n : ℚ))

/-- Unsigned part of the f32 grammar, idealised over the rationals: an
integer part, optionally a point and a fractional part, with at least one
digit overall. -/
def parseFloatUnsigned (s : List Char) : Option ℚ :=
  match splitOnChar '.' s with
  | [ip] =>
    match parseDigitsAux 0 ip with
    | some n => if ip = [] then none else some (n : ℚ)
    | none => none
  | [ip, fp] =>
    match parseDigitsAux 0 ip, parseDigitsAux 0 fp with
    | some n, some f =>
      if ip = [] ∧ fp = [] then none
      else some ((n : ℚ) + (f : ℚ) / (10 : ℚ) ^ fp.length)
    | _, _ => none
  | _ => none

/-- Embedding of Rust f32::from_str on plain decimal literals, idealised as
an exact rational (exponent forms, infinities and NaN are outside the
fragment the program's claims exercise). -/
def parseFloat (s : List Char) : Option ℚ :=
  match s with
  | '+' :: rest => parseFloatUnsigned rest
  | '-' :: rest => (parseFloatUnsigned rest).map Neg.neg
  | _ => parseFloatUnsigned s

/-- The options map built in main: association list with HashMap semantics
(lookup of the first matching key; insert replaces in place). -/
abbrev OptMap : Type := List (List Char × List Char)

/-- HashMap::get embedding. -/
def lookupOpt : OptMap → List Char → Option (List Char)
  | [], _ => none
  | (k0, v0) :: rest, k => if k0 = k then some v0 else lookupOpt rest k

/-- HashMap::contains_key embedding. -/
def containsKey (m : OptMap) (k : List Char) : Bool :=
  (lookupOpt m k).isSome

/-- HashMap::insert embedding: replace the binding of an existing key,
otherwise append a new binding. -/
def insertOpt : OptMap → List Char → List Char → OptMap
  | [], k, v => [(k, v)]
  | (k0, v0) :: rest, k, v =>
    if k0 = k then (k0, v) :: rest else (k0, v0) :: insertOpt rest k v

def sizeKey : List Char := ['s', 'i', 'z', 'e']
def filterKey : List Char := ['f', 'i', 'l', 't', 'e', 'r']
def strDefault : List Char := ['d', 'e', 'f', 'a', 'u', 'l', 't']
def strNearest : List Char := ['n', 'e', 'a', 'r', 'e', 's', 't']
def strLinear : List Char := ['l', 'i', 'n', 'e', 'a', 'r']
def strCubic : List Char := ['c', 'u', 'b', 'i', 'c']
def strGaussian : List Char := ['g', 'a', 'u', 's', 's', 'i', 'a', 'n']
def strLanczos3 : List Char := ['l', 'a', 'n', 'c', 'z', 'o', 's', '3']
def pngExt : List Char := ['p', 'n', 'g']
def jpgExt : List Char := ['j', 'p', 'g']
def jpegExt : List Char := ['j', 'p', 'e', 'g']

/-- The filter selection of resize in main.rs: a mutable variable initialised
to CatmullRom, reassigned through the match on the filter option when the
key is present.  The net effect is this pure lookup. -/
def chooseFilter (options : OptMap) : FilterType :=
  match lookupOpt options filterKey with
  | none => FilterType.CatmullRom
  | some v =>
    if v = strDefault then FilterType.CatmullRom
    else if v = strNearest then FilterType.Nearest
    else if v = strLinear then FilterType.Triangle
    else if v = strCubic then FilterType.CatmullRom
    else if v = strGaussian then FilterType.Gaussian
    else if v = strLanczos3 then FilterType.Lanczos3
    else FilterType.CatmullRom

/-- One entry of the directory walk: its path and whether it is a regular
file (Path::is_file). -/
structure Entry where
  path : List Char
  isFile : Bool
deriving DecidableEq

/-- Path::file_name embedding: the portion of the path after the last slash. -/
def fileName (path : List Char) : List Char :=
  (path.reverse.takeWhile (fun c => c ≠ '/')).reverse

/-- Path::extension embedding: the portion of the file name after its last
dot, provided the stem before that dot is nonempty; none when the file name
has no dot or starts with its only dot. -/
def extension (path : List Char) : Option (List Char) :=
  let name := fileName path
  let revExt := name.reverse.takeWhile (fun c => c ≠ '.')
  if revExt.length + 1 < name.length ∨ revExt.length + 1 = name.length ∧ name.headI ≠ '.'
  then some revExt.reverse else none

/-- The loop of process_directory in main.rs: walk the entries in order and
invoke the executor on every regular file whose extension is exactly png,
jpg or jpeg. -/
def process_directory {α : Type} (entries : List Entry) (executor : List Char → α) : List α :=
  match entries with
  | [] => []
  | e :: rest =>
    if e.isFile then
      match extension e.path with
      | some ext =>
        if ext = pngExt ∨ ext = jpgExt ∨ ext = jpegExt then
          executor e.path :: process_directory rest executor
        else process_directory rest executor
      | none => process_directory rest executor
    else process_directory rest executor

/-- A dispatched per-file resize invocation: which executor resize passed to
process_directory, applied to which path, with which captured arguments. -/
inductive ResizeCall where
  | byScale (path : List Char) (scale : ℚ) (filter : FilterType)
  | bySize (path : List Char) (width height : Nat) (filter : FilterType)
deriving DecidableEq

/-- The resize function of main.rs.  The directory walk is supplied as the
list of entries.  The result is either the error of the panic that aborts
the run, or the list of per-file resize invocations dispatched through
process_directory.  Control flow follows the source: when the x-split of the
size value does not have exactly two parts and the value ends with a percent
sign, the scale branch runs and returns; in every other case control falls
through to the absolute-size branch, which indexes parts 0 and 1 of the
split and parses them as u32. -/
def resize (entries : List Entry) (options : OptMap) : Except RsError (List ResizeCall) :=
  let filter := chooseFilter options
  match lookupOpt options sizeKey with
  | none => Except.error RsError.missingSize
  | some size_value =>
    let size := splitOnChar 'x' size_value
    if size.length ≠ 2 ∧ listEndsWith size_value '%' = true then
      match parseFloat size_value.dropLast with
      | none => Except.error RsError.panicParse
      | some percentage =>
        let scale := percentage / 100
        Except.ok (process_directory entries (fun p => ResizeCall.byScale p scale filter))
    else
      match size with
      | [] => Except.error RsError.panicIndex
      | s0 :: rest0 =>
        match parseU32 s0 with
        | none => Except.error RsError.panicParse
        | some w =>
          match rest0 with
          | [] => Except.error RsError.panicIndex
          | s1 :: _ =>
            match parseU32 s1 with
            | none => Except.error RsError.panicParse
            | some h =>
              Except.ok (process_directory entries (fun p => ResizeCall.bySize p w h filter))

/-- The option-string parsing loop of main: successive well-formed key=value
segments inserted into the map, aborting on the first malformed segment. -/
def parseOptionsGo : List (List Char) → OptMap → Except RsError OptMap
  | [], m => Except.ok m
  | seg :: rest, m =>
    match splitOnChar '=' seg with
    | [k, v] =>
      if k = [] then Except.error (RsError.invalidOption seg)
      else if v = [] then Except.error (RsError.invalidOption seg)
      else parseOptionsGo rest (insertOpt m k v)
    | _ => Except.error (RsError.invalidOption seg)

/-- Option parsing of main.rs: split the raw options string on commas, each
segment on the equals sign into exactly two nonempty parts, collecting the
pairs into the map. -/
def parseOptionsString (raw : List Char) : Except RsError OptMap :=
  parseOptionsGo (splitOnChar ',' raw) []

/-- An image, abstracted to its dimensions as the program only reads those. -/
structure ImageFile where
  width : Nat
  height : Nat
deriving DecidableEq

/-- The effect of a save call: the written path, the dimensions of the
written image, and the filter used to produce it. -/
structure SaveEffect where
  path : List Char
  width : Nat
  height : Nat
  filter : FilterType
deriving DecidableEq

/-- Rust numeric cast from f32 to u32 (idealised over the rationals): round
toward zero, saturating at the bounds of u32. -/
def f32ToU32 (q : ℚ) : Nat :=
  if q < 0 then 0 else min (2 ^ 32 - 1) q.floor.toNat

/-- The resize_by_scale function of main.rs: open the image at the path,
multiply its native dimensions by the scale, cast to u32, resize, save to
target_path which is a clone of the source path. -/
def resize_by_scale (source_path : List Char) (img : ImageFile) (scale : ℚ)
    (filter : FilterType) : SaveEffect :=
  { path := source_path
  , width := f32ToU32 ((img.width : ℚ) * scale)
  , height := f32ToU32 ((img.height : ℚ) * scale)
  , filter := filter }

/-- The resize_by_size function of main.rs: resize to the exact requested
dimensions and save over the source path. -/
def resize_by_size (source_path : List Char) (_img : ImageFile) (size : Nat × Nat)
    (filter : FilterType) : SaveEffect :=
  { path := source_path
  , width := size.1
  , height := size.2
  , filter := filter }

/-- FilterKind as the specification names the filters: Linear stands for the
linear (Triangle) filter and Cubic for the cubic (CatmullRom) filter. -/
inductive SpecFilterKind where
  | Nearest
  | Linear
  | Cubic
  | Gaussian
  | Lanczos3
deriving DecidableEq

/-- The fixed filter table exactly as the specification words it: default to
Cubic, nearest to Nearest, linear to Linear, cubic to Cubic, gaussian to
Gaussian, lanczos3 to Lanczos3, anything else to Cubic, and absence of the
key also to Cubic. -/
def specFilterTable (v : Option (List Char)) : SpecFilterKind :=
  match v with
  | none => SpecFilterKind.Cubic
  | some s =>
    if s = strDefault then SpecFilterKind.Cubic
    else if s = strNearest then SpecFilterKind.Nearest
    else if s = strLinear then SpecFilterKind.Linear
    else if s = strCubic then SpecFilterKind.Cubic
    else if s = strGaussian then SpecFilterKind.Gaussian
    else if s = strLanczos3 then SpecFilterKind.Lanczos3
    else SpecFilterKind.Cubic

/-- Renaming of the code filter enumeration into the names the specification
uses for the same resampling algorithms. -/
def filterToSpec : FilterType → SpecFilterKind
  | FilterType.Nearest => SpecFilterKind.Nearest
  | FilterType.Triangle => SpecFilterKind.Linear
  | FilterType.CatmullRom => SpecFilterKind.Cubic
  | FilterType.Gaussian => SpecFilterKind.Gaussian
  | FilterType.Lanczos3 => SpecFilterKind.Lanczos3

/-- A well-formed option segment: its equals-sign split is exactly two
nonempty parts. -/
def GoodSeg (seg : List Char) : Prop :=
  ∃ k v, splitOnChar '=' seg = [k, v] ∧ k ≠ [] ∧ v ≠ []

/-- The value of the last binding of a key in a list of key-value pairs, in
left-to-right order. -/
def lastValue (k : List Char) : List (List Char × List Char) → Option (List Char)
  | [] => none
  | (k0, v0) :: rest =>
    match lastValue k rest with
    | some v => some v
    | none => if k0 = k then some v0 else none

/-- The key-value pairs read off a list of segments: the equals-sign split
of every segment that splits into exactly two parts, in segment order. -/
def pairsOf (segs : List (List Char)) : List (List Char × List Char) :=
  segs.filterMap (fun seg =>
    match splitOnChar '=' seg with
    | [k, v] => some (k, v)
    | _ => none)

/-- The key-value pairs contributed by the comma-separated segments of a raw
options string, in segment order. -/
def segPairs (raw : List Char) : List (List Char × List Char) :=
  pairsOf (splitOnChar ',' raw)

/-! Supporting lemmas about the embedded primitives. -/

theorem splitOnChar_ne_nil (c : Char) (l : List Char) : splitOnChar c l ≠ [] := by
  induction l with
  | nil => simp [splitOnChar]
  | cons a rest ih =>
    simp only [splitOnChar]
    by_cases h : a = c
    · simp [h]
    · simp only [if_neg h]
      cases hr : splitOnChar c rest with
      | nil => simp
      | cons s ss => simp

theorem splitOnChar_of_not_mem {c : Char} {l : List Char} (h : c ∉ l) :
    splitOnChar c l = [l] := by
  induction l with
  | nil => rfl
  | cons a rest ih =>
    have ha : ¬ a = c := by
      rintro rfl
      exact h (List.mem_cons_self a rest)
    have hrest : c ∉ rest := fun hm => h (List.mem_cons_of_mem _ hm)
    simp only [splitOnChar, if_neg ha, ih hrest]

theorem splitOnChar_append {c : Char} {l1 : List Char} (l2 : List Char) (h : c ∉ l1) :
    splitOnChar c (l1 ++ c :: l2) = l1 :: splitOnChar c l2 := by
  induction l1 with
  | nil => simp [splitOnChar]
  | cons a rest ih =>
    have ha : ¬ a = c := by
      rintro rfl
      exact h (List.mem_cons_self a rest)
    have hrest : c ∉ rest := fun hm => h (List.mem_cons_of_mem _ hm)
    simp only [List.cons_append, splitOnChar, if_neg ha, List.append_eq, ih hrest]

theorem listEndsWith_concat (l : List Char) (c : Char) :
    listEndsWith (l ++ [c]) c = true := by
  unfold listEndsWith
  simp

theorem dropLast_concat_char (l : List Char) (c : Char) : (l ++ [c]).dropLast = l := by
  simp

theorem digits_not_x {l : List Char} (h : ∀ ch ∈ l, ch.isDigit = true) : 'x' ∉ l := by
  intro hm
  have := h 'x' hm
  simp [Char.isDigit] at this

theorem lookupOpt_insertOpt (m : OptMap) (k v k2 : List Char) :
    lookupOpt (insertOpt m k v) k2 = if k = k2 then some v else lookupOpt m k2 := by
  induction m with
  | nil => simp [insertOpt, lookupOpt]
  | cons hd rest ih =>
    obtain ⟨k0, v0⟩ := hd
    by_cases h0 : k0 = k
    · subst h0
      by_cases h2 : k0 = k2
      · subst h2
        simp [insertOpt, lookupOpt]
      · simp [insertOpt, lookupOpt, h2]
    · by_cases h2 : k0 = k2
      · subst h2
        have : ¬ k = k0 := fun hh => h0 hh.symm
        simp [insertOpt, lookupOpt, h0, this]
      · simp [insertOpt, lookupOpt, h0, h2, ih]

theorem containsKey_insertOpt (m : OptMap) (k v k2 : List Char) :
    containsKey (insertOpt m k v) k2 = (decide (k = k2) || containsKey m k2) := by
  unfold containsKey
  rw [lookupOpt_insertOpt]
  by_cases h : k = k2 <;> simp [h]

theorem goodSeg_iff_of_split {seg k v : List Char} (hs : splitOnChar '=' seg = [k, v]) :
    GoodSeg seg ↔ k ≠ [] ∧ v ≠ [] := by
  constructor
  · rintro ⟨k2, v2, h2, hk2, hv2⟩
    rw [hs] at h2
    injection h2 with e1 e2
    injection e2 with e2 _
    subst e1
    subst e2
    exact ⟨hk2, hv2⟩
  · rintro ⟨hk, hv⟩
    exact ⟨k, v, hs, hk, hv⟩

theorem parseOptionsGo_error_iff (segs : List (List Char)) (m0 : OptMap) :
    (∃ e, parseOptionsGo segs m0 = Except.error e) ↔ ∃ seg ∈ segs, ¬ GoodSeg seg := by
  induction segs generalizing m0 with
  | nil => simp [parseOptionsGo]
  | cons seg rest ih =>
    rw [List.exists_mem_cons_iff]
    rcases hs : splitOnChar '=' seg with _ | ⟨k, _ | ⟨v, _ | ⟨c3, rest3⟩⟩⟩
    · have hbad : ¬ GoodSeg seg := by
        rintro ⟨k2, v2, h2, _, _⟩
        rw [hs] at h2
        exact List.noConfusion h2
      simp only [parseOptionsGo, hs]
      constructor
      · intro _
        exact Or.inl hbad
      · intro _
        exact ⟨RsError.invalidOption seg, rfl⟩
    · have hbad : ¬ GoodSeg seg := by
        rintro ⟨k2, v2, h2, _, _⟩
        rw [hs] at h2
        injection h2 with _ e2
        exact List.noConfusion e2
      simp only [parseOptionsGo, hs]
      constructor
      · intro _
        exact Or.inl hbad
      · intro _
        exact ⟨RsError.invalidOption seg, rfl⟩
    · by_cases hk : k = []
      · have hbad : ¬ GoodSeg seg := by
          rw [goodSeg_iff_of_split hs]
          rintro ⟨hk2, _⟩
          exact hk2 hk
        simp only [parseOptionsGo, hs, if_pos hk]
        constructor
        · intro _
          exact Or.inl hbad
        · intro _
          exact ⟨RsError.invalidOption seg, rfl⟩
      · by_cases hv : v = []
        · have hbad : ¬ GoodSeg seg := by
            rw [goodSeg_iff_of_split hs]
            rintro ⟨_, hv2⟩
            exact hv2 hv
          simp only [parseOptionsGo, hs, if_neg hk, if_pos hv]
          constructor
          · intro _
            exact Or.inl hbad
          · intro _
            exact ⟨RsError.invalidOption seg, rfl⟩
        · have hgood : GoodSeg seg := (goodSeg_iff_of_split hs).mpr ⟨hk, hv⟩
          simp only [parseOptionsGo, hs, if_neg hk, if_neg hv]
          rw [ih]
          constructor
          · intro h2
            exact Or.inr h2
          · rintro (h2 | h2)
            · exact absurd hgood h2
            · exact h2
    · have hbad : ¬ GoodSeg seg := by
        rintro ⟨k2, v2, h2, _, _⟩
        rw [hs] at h2
        injection h2 with _ e2
        injection e2 with _ e3
        exact List.noConfusion e3
      simp only [parseOptionsGo, hs]
      constructor
      · intro _
        exact Or.inl hbad
      · intro _
        exact ⟨RsError.invalidOption seg, rfl⟩

theorem parseOptionsGo_ok_keys (segs : List (List Char)) (m0 m : OptMap)
    (hok : parseOptionsGo segs m0 = Except.ok m) :
    ∀ k, containsKey m0 k = true → containsKey m k = true := by
  induction segs generalizing m0 with
  | nil =>
    simp only [parseOptionsGo] at hok
    injection hok with hm
    subst hm
    exact fun k h => h
  | cons seg rest ih =>
    rcases hs : splitOnChar '=' seg with _ | ⟨k0, _ | ⟨v0, _ | ⟨c3, rest3⟩⟩⟩ <;>
      simp only [parseOptionsGo, hs] at hok
    · exact Except.noConfusion hok
    · exact Except.noConfusion hok
    · by_cases hk : k0 = []
      · rw [if_pos hk] at hok
        exact Except.noConfusion hok
      · rw [if_neg hk] at hok
        by_cases hv : v0 = []
        · rw [if_pos hv] at hok
          exact Except.noConfusion hok
        · rw [if_neg hv] at hok
          intro k hc
          refine ih (insertOpt m0 k0 v0) hok k ?_
          rw [containsKey_insertOpt]
          simp [hc]
    · exact Except.noConfusion hok

theorem parseOptionsGo_ok_mem (segs : List (List Char)) (m0 m : OptMap)
    (hok : parseOptionsGo segs m0 = Except.ok m) :
    ∀ seg ∈ segs, ∃ k v, splitOnChar '=' seg = [k, v] ∧ k ≠ [] ∧ v ≠ [] ∧
      containsKey m k = true := by
  induction segs generalizing m0 with
  | nil =>
    intro seg hm
    exact absurd hm (List.not_mem_nil seg)
  | cons seg rest ih =>
    rcases hs : splitOnChar '=' seg with _ | ⟨k0, _ | ⟨v0, _ | ⟨c3, rest3⟩⟩⟩ <;>
      simp only [parseOptionsGo, hs] at hok
    · exact Except.noConfusion hok
    · exact Except.noConfusion hok
    · by_cases hk : k0 = []
      · rw [if_pos hk] at hok
        exact Except.noConfusion hok
      · rw [if_neg hk] at hok
        by_cases hv : v0 = []
        · rw [if_pos hv] at hok
          exact Except.noConfusion hok
        · rw [if_neg hv] at hok
          intro seg2 hm2
          rcases List.mem_cons.mp hm2 with rfl | hm2
          · refine ⟨k0, v0, hs, hk, hv, ?_⟩
            refine parseOptionsGo_ok_keys rest _ m hok k0 ?_
            rw [containsKey_insertOpt]
            simp
          · exact ih (insertOpt m0 k0 v0) hok seg2 hm2
    · exact Except.noConfusion hok

theorem parseOptionsGo_lookup (segs : List (List Char)) (m0 m : OptMap)
    (hok : parseOptionsGo segs m0 = Except.ok m) (k : List Char) :
    lookupOpt m k =
      (match lastValue k (pairsOf segs) with
        | some v => some v
        | none => lookupOpt m0 k) := by
  induction segs generalizing m0 with
  | nil =>
    simp only [parseOptionsGo] at hok
    injection hok with hm
    subst hm
    simp [pairsOf, lastValue]
  | cons seg rest ih =>
    rcases hs : splitOnChar '=' seg with _ | ⟨k0, _ | ⟨v0, _ | ⟨c3, rest3⟩⟩⟩ <;>
      simp only [parseOptionsGo, hs] at hok
    · exact Except.noConfusion hok
    · exact Except.noConfusion hok
    · by_cases hk : k0 = []
      · rw [if_pos hk] at hok
        exact Except.noConfusion hok
      · rw [if_neg hk] at hok
        by_cases hv : v0 = []
        · rw [if_pos hv] at hok
          exact Except.noConfusion hok
        · rw [if_neg hv] at hok
          have hpairs : pairsOf (seg :: rest) = (k0, v0) :: pairsOf rest := by
            simp [pairsOf, List.filterMap_cons, hs]
          rw [hpairs]
          rw [ih (insertOpt m0 k0 v0) hok]
          rw [lookupOpt_insertOpt]
          simp only [lastValue]
          cases lastValue k (pairsOf rest) with
          | some v => rfl
          | none =>
            by_cases hkk : k0 = k
            · rw [if_pos hkk, if_pos hkk]
            · rw [if_neg hkk, if_neg hkk]
    · exact Except.noConfusion hok

theorem rat_floor_eq_intFloor (q : ℚ) : Rat.floor q = ⌊q⌋ := rfl

theorem f32ToU32_eq_floor (q : ℚ) (h0 : 0 ≤ q) (hlt : q < 2 ^ 32) :
    (f32ToU32 q : ℤ) = ⌊q⌋ := by
  have hnn : ¬ q < 0 := not_lt.mpr h0
  have hfl0 : 0 ≤ ⌊q⌋ := Int.floor_nonneg.mpr h0
  have hfllt : ⌊q⌋ < 2 ^ 32 := by
    have h1 : (⌊q⌋ : ℚ) ≤ q := Int.floor_le q
    have h2 : (⌊q⌋ : ℚ) < (2 ^ 32 : ℚ) := lt_of_le_of_lt h1 hlt
    exact_mod_cast h2
  have htn : ⌊q⌋.toNat ≤ 2 ^ 32 - 1 := by omega
  unfold f32ToU32
  rw [if_neg hnn, rat_floor_eq_intFloor]
  have hmin : min (2 ^ 32 - 1) ⌊q⌋.toNat = ⌊q⌋.toNat := min_eq_right htn
  rw [hmin]
  omega

/-! Claim theorems. -/

/-- Claim C1: the claim says a size value whose x-split is not exactly two
tokens and which does not end in a percent sign makes option parsing fail
with a configuration error, with no resize dispatched.  The code instead
falls through to the absolute-size branch: on the value 10x20x30 (three
x-split tokens, no percent suffix) the run does not abort and an
absolute-size resize to 10 by 20 is dispatched for the matched file. -/
theorem c1_malformed_size_falls_through_eval :
    (splitOnChar 'x' ['1', '0', 'x', '2', '0', 'x', '3', '0']).length = 3 ∧
    listEndsWith ['1', '0', 'x', '2', '0', 'x', '3', '0'] '%' = false ∧
    resize [⟨['a', '.', 'p', 'n', 'g'], true⟩]
        [(sizeKey, ['1', '0', 'x', '2', '0', 'x', '3', '0'])]
      = Except.ok [ResizeCall.bySize ['a', '.', 'p', 'n', 'g'] 10 20 FilterType.CatmullRom] :=
  ⟨by decide, by decide, rfl⟩

/-- Claim C2 counterexample: the claim says that on a size value whose
x-split is not exactly two parts and without a trailing percent sign the
resize operation returns silently, with no error raised.  On the value abc
(one x-split token, no percent suffix) the code instead panics while
parsing abc as u32, so an error is raised. -/
theorem c2_counterexample_error_raised :
    (splitOnChar 'x' ['a', 'b', 'c']).length = 1 ∧
    listEndsWith ['a', 'b', 'c'] '%' = false ∧
    resize [⟨['a', '.', 'p', 'n', 'g'], true⟩] [(sizeKey, ['a', 'b', 'c'])]
      = Except.error RsError.panicParse :=
  ⟨by decide, by decide, rfl⟩

/-- Claim C2 (amended): when the x-split of the size value is not exactly
two tokens and the value does not end in a percent sign, the code falls
through to the absolute-size branch: either the run aborts with a panic
(fewer than two tokens, or a token that does not parse as u32), or the
first two tokens parse as u32 and an absolute-size resize with those
dimensions is dispatched; it never returns silently without either
dispatching or raising an error. -/
theorem c2_fall_through_behavior (entries : List Entry) (options : OptMap) (v : List Char)
    (hlook : lookupOpt options sizeKey = some v)
    (hlen : (splitOnChar 'x' v).length ≠ 2)
    (hpct : listEndsWith v '%' = false) :
    (∃ e, resize entries options = Except.error e) ∨
    (∃ s0 s1 rest w h, splitOnChar 'x' v = s0 :: s1 :: rest ∧
      parseU32 s0 = some w ∧ parseU32 s1 = some h ∧
      resize entries options
        = Except.ok (process_directory entries
            (fun p => ResizeCall.bySize p w h (chooseFilter options)))) := by
  unfold resize
  rw [hlook]
  dsimp only
  rw [if_neg (by simp [hpct])]
  cases hsp : splitOnChar 'x' v with
  | nil => exact Or.inl ⟨RsError.panicIndex, rfl⟩
  | cons s0 rest0 =>
    cases hp0 : parseU32 s0 with
    | none =>
      refine Or.inl ⟨RsError.panicParse, ?_⟩
      simp only [hp0]
    | some w =>
      cases rest0 with
      | nil =>
        refine Or.inl ⟨RsError.panicIndex, ?_⟩
        simp only [hp0]
      | cons s1 rest1 =>
        cases hp1 : parseU32 s1 with
        | none =>
          refine Or.inl ⟨RsError.panicParse, ?_⟩
          simp only [hp0, hp1]
        | some h =>
          refine Or.inr ⟨s0, s1, rest1, w, h, rfl, hp0, hp1, ?_⟩
          simp only [hp0, hp1]

/-- Witness for claim C2 (amended) at the size value 10x20x30. -/
theorem c2_fall_through_behavior_witness :
    (∃ e, resize [⟨['a', '.', 'p', 'n', 'g'], true⟩]
        [(sizeKey, ['1', '0', 'x', '2', '0', 'x', '3', '0'])] = Except.error e) ∨
    (∃ s0 s1 rest w h,
      splitOnChar 'x' ['1', '0', 'x', '2', '0', 'x', '3', '0'] = s0 :: s1 :: rest ∧
      parseU32 s0 = some w ∧ parseU32 s1 = some h ∧
      resize [⟨['a', '.', 'p', 'n', 'g'], true⟩]
          [(sizeKey, ['1', '0', 'x', '2', '0', 'x', '3', '0'])]
        = Except.ok (process_directory [⟨['a', '.', 'p', 'n', 'g'], true⟩]
            (fun p => ResizeCall.bySize p w h
              (chooseFilter [(sizeKey, ['1', '0', 'x', '2', '0', 'x', '3', '0'])])))) :=
  c2_fall_through_behavior [⟨['a', '.', 'p', 'n', 'g'], true⟩]
    [(sizeKey, ['1', '0', 'x', '2', '0', 'x', '3', '0'])]
    ['1', '0', 'x', '2', '0', 'x', '3', '0'] (by decide) (by decide) (by decide)

/-- Claim C3: a size value of the form w x h, with w and h decimal
representations of positive integers that fit in u32, yields the
absolute-size mode with exactly those two dimensions: the dispatched
executor is the absolute-size one, so the scale-factor branch is not
taken. -/
theorem c3_absolute_size_exact (entries : List Entry) (options : OptMap)
    (dw dh : List Char) (w h : Nat)
    (hdw : ∀ ch ∈ dw, ch.isDigit = true) (hdh : ∀ ch ∈ dh, ch.isDigit = true)
    (hlook : lookupOpt options sizeKey = some (dw ++ 'x' :: dh))
    (hw : parseU32 dw = some w) (hh : parseU32 dh = some h)
    (hwpos : 0 < w) (hhpos : 0 < h) :
    resize entries options
      = Except.ok (process_directory entries
          (fun p => ResizeCall.bySize p w h (chooseFilter options))) := by
  have hx1 : 'x' ∉ dw := digits_not_x hdw
  have hx2 : 'x' ∉ dh := digits_not_x hdh
  have hsplit : splitOnChar 'x' (dw ++ 'x' :: dh) = [dw, dh] := by
    rw [splitOnChar_append dh hx1, splitOnChar_of_not_mem hx2]
  unfold resize
  rw [hlook]
  simp only [hsplit, List.length_cons, List.length_nil]
  rw [if_neg (by simp)]
  simp only [hw, hh]

/-- Witness for claim C3 at the size value 200x100. -/
theorem c3_absolute_size_exact_witness :
    0 < 200 ∧
    resize [⟨['a', '.', 'p', 'n', 'g'], true⟩]
        [(sizeKey, ['2', '0', '0'] ++ 'x' :: ['1', '0', '0'])]
      = Except.ok (process_directory [⟨['a', '.', 'p', 'n', 'g'], true⟩]
          (fun p => ResizeCall.bySize p 200 100
            (chooseFilter [(sizeKey, ['2', '0', '0'] ++ 'x' :: ['1', '0', '0'])]))) :=
  ⟨by decide,
   c3_absolute_size_exact [⟨['a', '.', 'p', 'n', 'g'], true⟩]
     [(sizeKey, ['2', '0', '0'] ++ 'x' :: ['1', '0', '0'])]
     ['2', '0', '0'] ['1', '0', '0'] 200 100
     (by decide) (by decide) (by decide) (by decide) (by decide) (by decide) (by decide)⟩

/-- Claim C4: a size value of the form n percent, with n a nonnegative
numeric literal containing no x, yields the scale-factor mode with scale
equal to the parsed value of n divided by 100. -/
theorem c4_scale_factor_mode (entries : List Entry) (options : OptMap)
    (n : List Char) (q : ℚ)
    (hx : 'x' ∉ n) (hq : parseFloat n = some q) (hq0 : 0 ≤ q)
    (hlook : lookupOpt options sizeKey = some (n ++ ['%'])) :
    resize entries options
      = Except.ok (process_directory entries
          (fun p => ResizeCall.byScale p (q / 100) (chooseFilter options))) := by
  have hxall : 'x' ∉ n ++ ['%'] := by
    intro hm
    rcases List.mem_append.mp hm with h1 | h1
    · exact hx h1
    · simp at h1
  have hsplit : splitOnChar 'x' (n ++ ['%']) = [n ++ ['%']] :=
    splitOnChar_of_not_mem hxall
  unfold resize
  rw [hlook]
  simp only [hsplit, List.length_cons, List.length_nil]
  rw [if_pos (by simp [listEndsWith_concat])]
  rw [dropLast_concat_char, hq]

/-- Witness for claim C4 at the size value 50 percent. -/
theorem c4_scale_factor_mode_witness :
    (0 : ℚ) ≤ 50 ∧
    resize [⟨['a', '.', 'p', 'n', 'g'], true⟩] [(sizeKey, ['5', '0'] ++ ['%'])]
      = Except.ok (process_directory [⟨['a', '.', 'p', 'n', 'g'], true⟩]
          (fun p => ResizeCall.byScale p ((50 : ℚ) / 100)
            (chooseFilter [(sizeKey, ['5', '0'] ++ ['%'])]))) :=
  ⟨by norm_num,
   c4_scale_factor_mode [⟨['a', '.', 'p', 'n', 'g'], true⟩]
     [(sizeKey, ['5', '0'] ++ ['%'])] ['5', '0'] 50
     (by decide) (by decide) (by norm_num) (by decide)⟩

/-- Claim C5: the selected resampling filter agrees, under the renaming of
the code enumeration into the names the specification uses, with the fixed
table the specification gives, both when the filter key is present (with
any value, recognised or not) and when it is absent; no filter value can
fail, as the selection is a total function. -/
theorem c5_filter_table_refinement (options : OptMap) :
    filterToSpec (chooseFilter options) = specFilterTable (lookupOpt options filterKey) := by
  unfold chooseFilter specFilterTable
  cases lookupOpt options filterKey with
  | none => rfl
  | some v =>
    dsimp only
    split_ifs <;> rfl

/-- Claim C6: splitting the raw options string on commas and each segment
on the equals sign fails exactly when some segment does not split into two
nonempty parts; on success every segment contributes its key to the
resulting options mapping. -/
theorem c6_malformed_option_iff (raw : List Char) :
    ((∃ e, parseOptionsString raw = Except.error e) ↔
      ∃ seg ∈ splitOnChar ',' raw, ¬ GoodSeg seg) ∧
    (∀ m, parseOptionsString raw = Except.ok m →
      ∀ seg ∈ splitOnChar ',' raw, ∃ k v,
        splitOnChar '=' seg = [k, v] ∧ k ≠ [] ∧ v ≠ [] ∧ containsKey m k = true) :=
  ⟨parseOptionsGo_error_iff (splitOnChar ',' raw) [],
   fun m hm => parseOptionsGo_ok_mem (splitOnChar ',' raw) [] m hm⟩

/-- Witness for claim C6: the raw options string size, with no equals sign,
fails with a malformed-option error. -/
theorem c6_malformed_option_iff_witness :
    ∃ e, parseOptionsString ['s', 'i', 'z', 'e'] = Except.error e :=
  (c6_malformed_option_iff ['s', 'i', 'z', 'e']).1.mpr
    ⟨['s', 'i', 'z', 'e'], by decide, by
      rintro ⟨k, v, hkv, _, _⟩
      have hs : splitOnChar '=' ['s', 'i', 'z', 'e'] = [['s', 'i', 'z', 'e']] := rfl
      rw [hs] at hkv
      injection hkv with _ e2
      exact List.noConfusion e2⟩

/-- Claim C7: an options mapping with no size key makes resize fail with
the missing-size configuration error, and no per-file resize is ever
dispatched. -/
theorem c7_missing_size_fatal (entries : List Entry) (options : OptMap)
    (h : containsKey options sizeKey = false) :
    resize entries options = Except.error RsError.missingSize ∧
    ∀ calls, resize entries options ≠ Except.ok calls := by
  have hl : lookupOpt options sizeKey = none := by
    unfold containsKey at h
    exact Option.not_isSome_iff_eq_none.mp (by simp [h])
  refine ⟨?_, ?_⟩
  · unfold resize
    rw [hl]
  · intro calls hcon
    unfold resize at hcon
    rw [hl] at hcon
    exact Except.noConfusion hcon

/-- Witness for claim C7 at the empty options mapping. -/
theorem c7_missing_size_fatal_witness :
    containsKey [] sizeKey = false ∧
    (resize [⟨['a', '.', 'p', 'n', 'g'], true⟩] [] = Except.error RsError.missingSize ∧
      ∀ calls, resize [⟨['a', '.', 'p', 'n', 'g'], true⟩] [] ≠ Except.ok calls) :=
  ⟨by decide, c7_missing_size_fatal [⟨['a', '.', 'p', 'n', 'g'], true⟩] [] (by decide)⟩

/-- Claim C8: during the directory walk the executor is invoked exactly on
the regular files whose extension is a case-sensitive match for png, jpg or
jpeg; every other entry is left untouched. -/
theorem c8_image_extension_selection (entries : List Entry) (p : List Char) :
    p ∈ process_directory entries (fun q => q) ↔
      ∃ e ∈ entries, e.path = p ∧ e.isFile = true ∧
        (extension p = some pngExt ∨ extension p = some jpgExt ∨ extension p = some jpegExt) := by
  induction entries with
  | nil => simp [process_directory]
  | cons e rest ih =>
    rw [List.exists_mem_cons_iff]
    unfold process_directory
    by_cases hf : e.isFile = true
    · cases hext : extension e.path with
      | none =>
        have hne : ¬(e.path = p ∧ e.isFile = true ∧
            (extension p = some pngExt ∨ extension p = some jpgExt ∨ extension p = some jpegExt)) := by
          rintro ⟨rfl, _, hor⟩
          rw [hext] at hor
          rcases hor with h1 | h1 | h1 <;> exact Option.noConfusion h1
        rw [or_iff_right hne]
        simp only [hf, if_true, hext]
        exact ih
      | some ext =>
        by_cases him : ext = pngExt ∨ ext = jpgExt ∨ ext = jpegExt
        · simp only [hf, if_true, hext, if_pos him, List.mem_cons]
          constructor
          · rintro (rfl | hm)
            · left
              refine ⟨rfl, by simp [hf], ?_⟩
              rw [hext]
              rcases him with h1 | h1 | h1 <;> simp [h1]
            · right
              exact ih.mp hm
          · rintro (⟨rfl, _, hor⟩ | hm)
            · left
              rfl
            · right
              exact ih.mpr hm
        · have hne : ¬(e.path = p ∧ e.isFile = true ∧
              (extension p = some pngExt ∨ extension p = some jpgExt ∨ extension p = some jpegExt)) := by
            rintro ⟨rfl, _, hor⟩
            rw [hext] at hor
            apply him
            rcases hor with h1 | h1 | h1
            · exact Or.inl (Option.some.inj h1)
            · exact Or.inr (Or.inl (Option.some.inj h1))
            · exact Or.inr (Or.inr (Option.some.inj h1))
          rw [or_iff_right hne]
          simp only [hf, if_true, hext, if_neg him]
          exact ih
    · have hne : ¬(e.path = p ∧ e.isFile = true ∧
          (extension p = some pngExt ∨ extension p = some jpgExt ∨ extension p = some jpegExt)) := by
        rintro ⟨_, hfe, _⟩
        exact hf hfe
      rw [or_iff_right hne]
      have hfb : e.isFile = false := by
        cases hb : e.isFile
        · rfl
        · exact absurd hb hf
      simp only [hfb, if_false, Bool.false_eq_true]
      exact ih

/-- Claim C9: in the scale-factor branch, for a nonnegative scale whose
products with the native dimensions stay below 2 to the 32, the dimensions
of the written image are the floors of native width times scale and native
height times scale (the truncating float-to-u32 cast), and the written
path is the source path itself. -/
theorem c9_scale_floor_dimensions (p : List Char) (img : ImageFile) (s : ℚ) (f : FilterType)
    (hs : 0 ≤ s) (hw : (img.width : ℚ) * s < 2 ^ 32) (hh : (img.height : ℚ) * s < 2 ^ 32) :
    ((resize_by_scale p img s f).width : ℤ) = ⌊(img.width : ℚ) * s⌋ ∧
    ((resize_by_scale p img s f).height : ℤ) = ⌊(img.height : ℚ) * s⌋ ∧
    (resize_by_scale p img s f).path = p := by
  refine ⟨?_, ?_, rfl⟩
  · exact f32ToU32_eq_floor _ (mul_nonneg (Nat.cast_nonneg _) hs) hw
  · exact f32ToU32_eq_floor _ (mul_nonneg (Nat.cast_nonneg _) hs) hh

/-- Witness for claim C9: a 100 by 50 image scaled by one half. -/
theorem c9_scale_floor_dimensions_witness :
    (0 : ℚ) ≤ 1 / 2 ∧
    (((resize_by_scale ['a', '.', 'p', 'n', 'g'] ⟨100, 50⟩ (1 / 2) FilterType.Nearest).width : ℤ)
        = ⌊((100 : ℕ) : ℚ) * (1 / 2)⌋ ∧
      ((resize_by_scale ['a', '.', 'p', 'n', 'g'] ⟨100, 50⟩ (1 / 2) FilterType.Nearest).height : ℤ)
        = ⌊((50 : ℕ) : ℚ) * (1 / 2)⌋ ∧
      (resize_by_scale ['a', '.', 'p', 'n', 'g'] ⟨100, 50⟩ (1 / 2) FilterType.Nearest).path
        = ['a', '.', 'p', 'n', 'g']) :=
  ⟨by norm_num,
   c9_scale_floor_dimensions ['a', '.', 'p', 'n', 'g'] ⟨100, 50⟩ (1 / 2) FilterType.Nearest
     (by norm_num) (by norm_num) (by norm_num)⟩

/-- Claim C10: when every comma-separated segment is well formed, parsing
succeeds even if a key occurs several times, and the value the resulting
mapping reports for every key is the one of its last occurrence in
left-to-right segment order. -/
theorem c10_last_occurrence_wins (raw : List Char)
    (hgood : ∀ seg ∈ splitOnChar ',' raw, GoodSeg seg) :
    ∃ m, parseOptionsString raw = Except.ok m ∧
      ∀ k, lookupOpt m k = lastValue k (segPairs raw) := by
  cases hres : parseOptionsString raw with
  | error e =>
    exfalso
    have h2 := (parseOptionsGo_error_iff (splitOnChar ',' raw) []).mp ⟨e, hres⟩
    obtain ⟨seg, hmem, hbad⟩ := h2
    exact hbad (hgood seg hmem)
  | ok m =>
    refine ⟨m, rfl, fun k => ?_⟩
    have h2 := parseOptionsGo_lookup (splitOnChar ',' raw) [] m hres k
    rw [h2]
    unfold segPairs
    cases lastValue k (pairsOf (splitOnChar ',' raw)) with
    | some v => rfl
    | none => rfl

/-- Witness for claim C10 at the raw options string size=1x1,size=2x2. -/
theorem c10_last_occurrence_wins_witness :
    ∃ m, parseOptionsString
        ['s', 'i', 'z', 'e', '=', '1', 'x', '1', ',', 's', 'i', 'z', 'e', '=', '2', 'x', '2']
        = Except.ok m ∧
      ∀ k, lookupOpt m k = lastValue k (segPairs
        ['s', 'i', 'z', 'e', '=', '1', 'x', '1', ',', 's', 'i', 'z', 'e', '=', '2', 'x', '2']) :=
  c10_last_occurrence_wins
    ['s', 'i', 'z', 'e', '=', '1', 'x', '1', ',', 's', 'i', 'z', 'e', '=', '2', 'x', '2']
    (by
      intro seg hmem
      have hs : splitOnChar ','
          ['s', 'i', 'z', 'e', '=', '1', 'x', '1', ',', 's', 'i', 'z', 'e', '=', '2', 'x', '2']
          = [['s', 'i', 'z', 'e', '=', '1', 'x', '1'], ['s', 'i', 'z', 'e', '=', '2', 'x', '2']] := rfl
      rw [hs] at hmem
      rcases List.mem_cons.mp hmem with rfl | hmem
      · exact ⟨['s', 'i', 'z', 'e'], ['1', 'x', '1'], rfl, by decide, by decide⟩
      · rcases List.mem_cons.mp hmem with rfl | hmem
        · exact ⟨['s', 'i', 'z', 'e'], ['2', 'x', '2'], rfl, by decide, by decide⟩
        · exact absurd hmem (List.not_mem_nil seg))

end Rsimg
